import Mathlib

/-!
Verification of the `mom.codec` byte-string / integer codec subsystem.

Byte strings are modelled as `List Nat` (each element an 8-bit unit, `< 256`
where it matters); textual encodings are `List Char`; Python's unbounded
non-negative `long` is `Nat`.  Fallible operations (decoders that can raise
`ValueError` / `TypeError` / assertion errors in the source) return `Option`.
-/

namespace Mom

/-- Big-endian base-256 value of a byte list (the semantic value every
byte-level transform preserves). -/
def beVal (l : List Nat) : Nat := l.foldl (fun a b => 256 * a + b) 0

/-- Minimal big-endian base-256 digits of `n` (empty for `0`, no leading
zero byte otherwise). -/
def toBE (n : Nat) : List Nat :=
  if n = 0 then [] else toBE (n / 256) ++ [n % 256]
  decreasing_by exact Nat.div_lt_self (Nat.pos_of_ne_zero (by assumption)) (by norm_num)

/-- `struct.unpack(">I", ...)` on four bytes: big-endian 32-bit word. -/
def unpackBE4 (a b c d : Nat) : Nat := ((a * 256 + b) * 256 + c) * 256 + d

/-- The accumulation loop of `bytes_to_long`: fold 4-byte big-endian words
into the accumulator via `acc = (acc << 32) + word`. -/
def foldWords : Nat → List Nat → Nat
  | acc, a :: b :: c :: d :: rest => foldWords (acc * 2 ^ 32 + unpackBE4 a b c d) rest
  | acc, _ => acc

/-- `mom.codec.bytes_to_long`: left-pad with zero bytes to a multiple of 4,
then fold 32-bit big-endian words. -/
def bytes_to_long (byte_string : List Nat) : Nat :=
  let length := byte_string.length
  let padded := if length % 4 = 0 then byte_string
                else List.replicate (4 - length % 4) 0 ++ byte_string
  foldWords 0 padded

/-- `struct.pack(">I", w)` for `w = num & 0xffffffff`: four big-endian bytes. -/
def pack32 (w : Nat) : List Nat :=
  [w / 2 ^ 24 % 256, w / 2 ^ 16 % 256, w / 2 ^ 8 % 256, w % 256]

/-- The `while num > 0` loop of `long_to_bytes`: prepend the packed low
32 bits, shift right by 32. -/
def l2bLoop (num : Nat) : List Nat :=
  if num = 0 then [] else l2bLoop (num / 2 ^ 32) ++ pack32 (num % 2 ^ 32)
  decreasing_by exact Nat.div_lt_self (Nat.pos_of_ne_zero (by assumption)) (by norm_num)

/-- The leading-zero strip of `long_to_bytes`, with its `for ... else`
floor: when every byte is zero (only for `num == 0`) the result is the
single byte `\x00`. -/
def stripFloor (s : List Nat) : List Nat :=
  let t := s.dropWhile (· == 0)
  if t.isEmpty then [0] else t

/-- The block padding step of `long_to_bytes`: when `blocksize > 0` and the
length is not already a multiple, left-pad with zero bytes. -/
def padBlock (blocksize : Nat) (s : List Nat) : List Nat :=
  if blocksize > 0 ∧ s.length % blocksize ≠ 0 then
    List.replicate (blocksize - s.length % blocksize) 0 ++ s
  else s

/-- `mom.codec.long_to_bytes`: emit 32-bit chunks, strip leading zero bytes
(single `\x00` for `num == 0`), then left-pad to a multiple of `blocksize`. -/
def long_to_bytes (num blocksize : Nat) : List Nat :=
  padBlock blocksize (stripFloor (l2bLoop num))

/-- The spec's "minimal big-endian byte encoding" of `n`: smallest number of
bytes, no leading zero byte, except `n = 0` gives the single byte `0x00`.
Stated from the spec's words, to be compared with `long_to_bytes`. -/
def minimal_encoding (n : Nat) : List Nat :=
  if n = 0 then [0] else toBE n

/-! ### Value lemmas for the big-endian fold -/

theorem beVal_foldl (l : List Nat) :
    ∀ a, l.foldl (fun x y => 256 * x + y) a = a * 256 ^ l.length + beVal l := by
  induction l with
  | nil => intro a; simp [beVal]
  | cons h t ih =>
    intro a
    have hbe : beVal (h :: t) = h * 256 ^ t.length + beVal t := by
      show List.foldl (fun x y => 256 * x + y) 0 (h :: t) = _
      simp only [List.foldl_cons]
      rw [ih (256 * 0 + h)]
      simp only [Nat.mul_zero, Nat.zero_add]
    simp only [List.foldl_cons]
    rw [ih (256 * a + h), hbe]
    simp only [List.length_cons, Nat.pow_succ]
    ring

theorem beVal_cons (h : Nat) (t : List Nat) :
    beVal (h :: t) = h * 256 ^ t.length + beVal t := by
  show List.foldl (fun x y => 256 * x + y) 0 (h :: t) = _
  simp only [List.foldl_cons]
  rw [beVal_foldl t (256 * 0 + h)]
  simp only [Nat.mul_zero, Nat.zero_add]

theorem beVal_append (xs ys : List Nat) :
    beVal (xs ++ ys) = beVal xs * 256 ^ ys.length + beVal ys := by
  show List.foldl (fun x y => 256 * x + y) 0 (xs ++ ys) = _
  rw [List.foldl_append, beVal_foldl ys]
  rfl

theorem beVal_replicate_zero (k : Nat) : beVal (List.replicate k 0) = 0 := by
  induction k with
  | zero => rfl
  | succ m ih =>
    rw [List.replicate_succ, beVal_cons, ih]
    simp

theorem beVal_replicate_zero_append (k : Nat) (l : List Nat) :
    beVal (List.replicate k 0 ++ l) = beVal l := by
  rw [beVal_append, beVal_replicate_zero]
  simp

theorem beVal_toBE (n : Nat) : beVal (toBE n) = n := by
  induction n using Nat.strong_induction_on with
  | _ n ih =>
    by_cases h : n = 0
    · subst h
      rw [toBE]
      simp [beVal]
    · rw [toBE]
      simp only [h, if_false]
      rw [beVal_append, ih (n / 256) (Nat.div_lt_self (Nat.pos_of_ne_zero h) (by norm_num))]
      have h1 : beVal [n % 256] = n % 256 := by simp [beVal]
      rw [h1]
      simp only [List.length_singleton, pow_one]
      omega

theorem beVal_pack32 (w : Nat) : beVal (pack32 w) = w % 2 ^ 32 := by
  simp only [pack32, beVal, List.foldl_cons, List.foldl_nil]
  omega

theorem beVal_l2bLoop (n : Nat) : beVal (l2bLoop n) = n := by
  induction n using Nat.strong_induction_on with
  | _ n ih =>
    by_cases h : n = 0
    · subst h
      rw [l2bLoop]
      simp [beVal]
    · rw [l2bLoop]
      simp only [h, if_false]
      rw [beVal_append, ih (n / 2 ^ 32) (Nat.div_lt_self (Nat.pos_of_ne_zero h) (by norm_num))]
      rw [beVal_pack32]
      simp only [pack32, List.length_cons, List.length_nil]
      omega

theorem beVal_dropWhile_zero (l : List Nat) :
    beVal (l.dropWhile (· == 0)) = beVal l := by
  induction l with
  | nil => rfl
  | cons h t ih =>
    by_cases hz : h = 0
    · subst hz
      rw [List.dropWhile_cons_of_pos (by simp)]
      rw [ih, beVal_cons]
      simp
    · rw [List.dropWhile_cons_of_neg (by simp [hz])]

theorem beVal_stripFloor (s : List Nat) : beVal (stripFloor s) = beVal s := by
  unfold stripFloor
  by_cases he : (s.dropWhile (· == 0)).isEmpty
  · simp only [he, if_true]
    have h0 : s.dropWhile (· == 0) = [] := by
      rwa [List.isEmpty_iff] at he
    have := beVal_dropWhile_zero s
    rw [h0] at this
    have hb : beVal ([] : List Nat) = 0 := rfl
    have h1 : beVal [0] = 0 := by simp [beVal]
    omega
  · simp only [he, if_false]
    exact beVal_dropWhile_zero s

theorem beVal_padBlock (bs : Nat) (s : List Nat) :
    beVal (padBlock bs s) = beVal s := by
  unfold padBlock
  split
  · rw [beVal_replicate_zero_append]
  · rfl

/-! ### `bytes_to_long` computes the big-endian value -/

theorem foldWords_eq_foldl (acc : Nat) (l : List Nat) :
    l.length % 4 = 0 → foldWords acc l = l.foldl (fun x y => 256 * x + y) acc := by
  induction acc, l using foldWords.induct with
  | case1 acc a b c d rest ih =>
    intro hl
    rw [foldWords]
    have hr : rest.length % 4 = 0 := by
      simp only [List.length_cons] at hl
      omega
    rw [ih hr]
    simp only [List.foldl_cons]
    congr 1
    simp only [unpackBE4]
    ring
  | case2 t acc h2 =>
    intro hl
    rcases t with _ | ⟨a, _ | ⟨b, _ | ⟨c, _ | ⟨d, rest⟩⟩⟩⟩
    · rfl
    · simp at hl
    · simp at hl
    · simp at hl
    · exact (h2 a b c d rest rfl).elim

theorem bytes_to_long_eq_beVal (l : List Nat) : bytes_to_long l = beVal l := by
  unfold bytes_to_long
  by_cases h : l.length % 4 = 0
  · simp only [h, if_true]
    rw [foldWords_eq_foldl 0 l h, beVal_foldl]
    simp
  · simp only [h, if_false]
    have hlen : (List.replicate (4 - l.length % 4) 0 ++ l).length % 4 = 0 := by
      simp only [List.length_append, List.length_replicate]
      omega
    rw [foldWords_eq_foldl 0 _ hlen, beVal_foldl]
    simp only [Nat.zero_mul, Nat.zero_add]
    rw [beVal_replicate_zero_append]

/-! ### `long_to_bytes` preserves the value -/

theorem beVal_long_to_bytes (n bs : Nat) : beVal (long_to_bytes n bs) = n := by
  unfold long_to_bytes
  rw [beVal_padBlock, beVal_stripFloor, beVal_l2bLoop]

/-- C2: for every non-negative integer `n` and block size `bs`,
`bytes_to_long (long_to_bytes n bs) = n`, regardless of the padding
requested. -/
theorem bytes_to_long_long_to_bytes (n bs : Nat) :
    bytes_to_long (long_to_bytes n bs) = n := by
  rw [bytes_to_long_eq_beVal, beVal_long_to_bytes]

/-! ### Shape of the stripped encoding: `long_to_bytes` without padding is
the minimal big-endian encoding -/

theorem beVal_positive (h : Nat) (t : List Nat) (hh : h ≠ 0) :
    0 < beVal (h :: t) := by
  rw [beVal_cons]
  have hp : 0 < 256 ^ t.length := pow_pos (by norm_num) _
  have : 0 < h * 256 ^ t.length := Nat.mul_pos (Nat.pos_of_ne_zero hh) hp
  omega

theorem toBE_of_beVal :
    ∀ r : List Nat, (∀ x ∈ r, x < 256) → (∀ h t, r = h :: t → h ≠ 0) →
    toBE (beVal r) = r := by
  intro r
  induction r using List.reverseRecOn with
  | nil =>
    intro _ _
    have h0 : beVal [] = 0 := rfl
    rw [h0, toBE]
    simp
  | append_singleton init b ih =>
    intro hlt hhead
    have hb : b < 256 := hlt b (by simp)
    have hval : beVal (init ++ [b]) = beVal init * 256 + b := by
      rw [beVal_append]
      have : beVal [b] = b := by simp [beVal]
      simp [this]
    cases init with
    | nil =>
      have hb0 : b ≠ 0 := hhead b [] rfl
      rw [hval]
      have hbv : beVal ([] : List Nat) = 0 := rfl
      rw [hbv, toBE]
      simp only [Nat.zero_mul, Nat.zero_add]
      rw [if_neg hb0]
      rw [Nat.div_eq_of_lt hb, Nat.mod_eq_of_lt hb, toBE]
      simp
    | cons h0 t0 =>
      have hh0 : h0 ≠ 0 := fun he => hhead h0 (t0 ++ [b]) (by simp) he
      have hpos : 0 < beVal (h0 :: t0) := beVal_positive h0 t0 hh0
      rw [hval]
      have hne : beVal (h0 :: t0) * 256 + b ≠ 0 := by
        have : 256 ≤ beVal (h0 :: t0) * 256 := by
          have := Nat.mul_le_mul_right 256 hpos
          omega
        omega
      rw [toBE, if_neg hne]
      have hdiv : (beVal (h0 :: t0) * 256 + b) / 256 = beVal (h0 :: t0) := by
        omega
      have hmod : (beVal (h0 :: t0) * 256 + b) % 256 = b := by
        omega
      rw [hdiv, hmod]
      have ihr := ih (fun x hx => hlt x (by
          simp only [List.cons_append, List.mem_cons, List.mem_append,
            List.mem_singleton] at hx ⊢
          tauto))
        (fun h t he => by
          have : h0 = h := by
            have := List.cons.injEq h0 t0 h t ▸ he
            exact (List.cons.inj he).1
          rw [← this]
          exact hh0)
      rw [ihr]

theorem l2bLoop_lt_256 (n : Nat) : ∀ x ∈ l2bLoop n, x < 256 := by
  induction n using Nat.strong_induction_on with
  | _ n ih =>
    by_cases h : n = 0
    · subst h
      rw [l2bLoop]
      simp
    · rw [l2bLoop]
      simp only [h, if_false]
      intro x hx
      rcases List.mem_append.mp hx with hx | hx
      · exact ih (n / 2 ^ 32) (Nat.div_lt_self (Nat.pos_of_ne_zero h) (by norm_num)) x hx
      · simp only [pack32, List.mem_cons, List.not_mem_nil, or_false] at hx
        rcases hx with rfl | rfl | rfl | rfl <;> omega

theorem dropWhile_zero_head (l : List Nat) :
    ∀ h t, l.dropWhile (· == 0) = h :: t → h ≠ 0 := by
  induction l with
  | nil => intro h t he; simp at he
  | cons a l ih =>
    intro h t he
    by_cases ha : a = 0
    · subst ha
      rw [List.dropWhile_cons_of_pos (by simp)] at he
      exact ih h t he
    · rw [List.dropWhile_cons_of_neg (by simp [ha])] at he
      rw [← (List.cons.inj he).1]
      exact ha

theorem mem_dropWhile_zero (l : List Nat) (x : Nat)
    (hx : x ∈ l.dropWhile (· == 0)) : x ∈ l :=
  (List.dropWhile_sublist (· == 0)).mem hx

/-- Without padding, the strip stage of `long_to_bytes` produces exactly the
spec's minimal encoding of the value. -/
theorem stripFloor_l2bLoop (n : Nat) :
    stripFloor (l2bLoop n) = minimal_encoding n := by
  unfold stripFloor minimal_encoding
  by_cases h : n = 0
  · subst h
    rw [l2bLoop]
    simp
  · rw [if_neg h]
    set t := (l2bLoop n).dropWhile (· == 0) with ht
    have hval : beVal t = n := by
      rw [ht, beVal_dropWhile_zero, beVal_l2bLoop]
    have hne : ¬ t.isEmpty := by
      intro he
      rw [List.isEmpty_iff] at he
      rw [he] at hval
      exact h (by simpa [beVal] using hval.symm)
    rw [if_neg hne]
    have hlt : ∀ x ∈ t, x < 256 := fun x hx =>
      l2bLoop_lt_256 n x (mem_dropWhile_zero _ x hx)
    have hhead : ∀ a s, t = a :: s → a ≠ 0 := fun a s he =>
      dropWhile_zero_head (l2bLoop n) a s (ht ▸ he)
    have := toBE_of_beVal t hlt hhead
    rw [hval] at this
    exact this.symm

theorem long_to_bytes_zero_bs (n : Nat) :
    long_to_bytes n 0 = minimal_encoding n := by
  unfold long_to_bytes padBlock
  rw [stripFloor_l2bLoop]
  simp

/-- C3: `long_to_bytes n bs` is the spec's minimal big-endian encoding
(`\x00` floor at `n = 0`), left-padded with zero bytes — when `bs > 0` — to
the smallest length that is a multiple of `bs`; in particular
`long_to_bytes 0 0 = [0]` and `long_to_bytes 0 4 = [0,0,0,0]`. -/
theorem long_to_bytes_minimal (n bs : Nat) (hbs : 0 < bs) :
    long_to_bytes n 0 = minimal_encoding n ∧
    (∃ k, long_to_bytes n bs = List.replicate k 0 ++ minimal_encoding n) ∧
    (long_to_bytes n bs).length % bs = 0 ∧
    (minimal_encoding n).length ≤ (long_to_bytes n bs).length ∧
    (long_to_bytes n bs).length < (minimal_encoding n).length + bs ∧
    long_to_bytes 0 0 = [0] ∧ long_to_bytes 0 4 = [0, 0, 0, 0] := by
  have hz : long_to_bytes 0 0 = [0] := by
    rw [long_to_bytes_zero_bs]
    rfl
  have hz4 : long_to_bytes 0 4 = [0, 0, 0, 0] := by
    show padBlock 4 (stripFloor (l2bLoop 0)) = _
    rw [stripFloor_l2bLoop]
    rfl
  have hm : long_to_bytes n bs = padBlock bs (minimal_encoding n) := by
    show padBlock bs (stripFloor (l2bLoop n)) = _
    rw [stripFloor_l2bLoop]
  by_cases hr : (minimal_encoding n).length % bs = 0
  · have hpb : padBlock bs (minimal_encoding n) = minimal_encoding n := by
      unfold padBlock
      rw [if_neg]
      simp [hr]
    rw [hm, hpb]
    exact ⟨long_to_bytes_zero_bs n, ⟨0, by simp⟩, hr, Nat.le_refl _,
      by omega, hz, hz4⟩
  · have hpb : padBlock bs (minimal_encoding n) =
        List.replicate (bs - (minimal_encoding n).length % bs) 0 ++ minimal_encoding n := by
      unfold padBlock
      rw [if_pos ⟨hbs, hr⟩]
    rw [hm, hpb]
    have hlen : (List.replicate (bs - (minimal_encoding n).length % bs) 0 ++
        minimal_encoding n).length =
        (bs - (minimal_encoding n).length % bs) + (minimal_encoding n).length := by
      simp
    refine ⟨long_to_bytes_zero_bs n, ⟨_, rfl⟩, ?_, ?_, ?_, hz, hz4⟩ <;>
      rw [hlen]
    · have h2 : bs - (minimal_encoding n).length % bs + (minimal_encoding n).length =
          bs * ((minimal_encoding n).length / bs + 1) := by
        have hmod := Nat.mod_lt (minimal_encoding n).length hbs
        have hdm := Nat.div_add_mod (minimal_encoding n).length bs
        have hmul : bs * ((minimal_encoding n).length / bs + 1) =
            bs * ((minimal_encoding n).length / bs) + bs := by ring
        omega
      rw [h2]
      exact Nat.mul_mod_right bs _
    · omega
    · have := Nat.mod_lt (minimal_encoding n).length hbs
      omega

/-- C3 witness: the characterization instantiated at `n = 5`, `bs = 4`. -/
theorem long_to_bytes_minimal_witness :
    long_to_bytes 5 0 = minimal_encoding 5 ∧
    (∃ k, long_to_bytes 5 4 = List.replicate k 0 ++ minimal_encoding 5) ∧
    (long_to_bytes 5 4).length % 4 = 0 ∧
    (minimal_encoding 5).length ≤ (long_to_bytes 5 4).length ∧
    (long_to_bytes 5 4).length < (minimal_encoding 5).length + 4 ∧
    long_to_bytes 0 0 = [0] ∧ long_to_bytes 0 4 = [0, 0, 0, 0] :=
  long_to_bytes_minimal 5 4 (by decide)

/-! ### Decimal codec -/

/-- Modelled from the spec: digit emitter behind `mom.builtins.bytes` on a
`long` (that module is not among the analyzed sources) — base-10 ASCII
digits, most significant first, empty for `0`. -/
def toDecAux (n : Nat) : List Char :=
  if n = 0 then [] else toDecAux (n / 10) ++ [Char.ofNat (48 + n % 10)]
  decreasing_by exact Nat.div_lt_self (Nat.pos_of_ne_zero (by assumption)) (by norm_num)

/-- Modelled from the spec: `mom.builtins.bytes(long_val)` renders the
integer in base-10 ASCII digits with no leading zeros. -/
def bytes_of_long (n : Nat) : List Char :=
  if n = 0 then ['0'] else toDecAux n

/-- Modelled from the spec: Python `long(encoded)` — parse the string as a
base-10 integer; `ValueError` (here `none`) on the empty string or any
non-digit character. -/
def long_of_string (s : List Char) : Option Nat :=
  if s ≠ [] ∧ s.all Char.isDigit then
    some (s.foldl (fun a c => 10 * a + (c.toNat - 48)) 0)
  else none

/-- `mom.codec.decimal_encode`: count leading zero bytes, render the
big-endian value in decimal, prefix one ASCII `'0'` per leading zero byte
(only the prefix when the value is zero). -/
def decimal_encode (byte_string : List Nat) : List Char :=
  let padding_count := (byte_string.takeWhile (· == 0)).length
  let long_val := bytes_to_long byte_string
  if long_val ≠ 0 then List.replicate padding_count '0' ++ bytes_of_long long_val
  else List.replicate padding_count '0'

/-- `mom.codec.decimal_decode`: count leading `'0'` characters, parse the
whole string with `long()`, emit one zero byte per leading `'0'` followed by
`long_to_bytes` of the value when non-zero. -/
def decimal_decode (encoded : List Char) : Option (List Nat) :=
  let padding_count := (encoded.takeWhile (· == '0')).length
  match long_of_string encoded with
  | none => none
  | some long_val =>
    if long_val = 0 then some (List.replicate padding_count 0)
    else some (List.replicate padding_count 0 ++ long_to_bytes long_val 0)

/-! ### Decimal digit lemmas -/

theorem digit_char_isDigit : ∀ d < 10, (Char.ofNat (48 + d)).isDigit = true := by
  decide

theorem digit_char_ne_zero_char : ∀ d < 10, 0 < d → Char.ofNat (48 + d) ≠ '0' := by
  decide

theorem digit_char_val : ∀ d < 10, (Char.ofNat (48 + d)).toNat - 48 = d := by
  decide

theorem toDecAux_all_digits (n : Nat) : (toDecAux n).all Char.isDigit = true := by
  induction n using Nat.strong_induction_on with
  | _ n ih =>
    by_cases h : n = 0
    · subst h
      rw [toDecAux]
      simp
    · rw [toDecAux]
      simp only [h, if_false, List.all_append, Bool.and_eq_true]
      refine ⟨ih (n / 10) (Nat.div_lt_self (Nat.pos_of_ne_zero h) (by norm_num)), ?_⟩
      simp only [List.all_cons, List.all_nil, Bool.and_true]
      exact digit_char_isDigit (n % 10) (Nat.mod_lt n (by norm_num))

theorem toDecAux_shape :
    ∀ n : Nat, 0 < n → ∃ t : List Char,
      toDecAux n = Char.ofNat (48 + n / 10 ^ t.length) :: t ∧
      10 ^ t.length ≤ n ∧ n < 10 ^ (t.length + 1) := by
  intro n
  induction n using Nat.strong_induction_on with
  | _ n ih =>
    intro hn
    by_cases hsmall : n < 10
    · refine ⟨[], ?_, ?_, ?_⟩
      · rw [toDecAux, if_neg (Nat.pos_iff_ne_zero.mp hn), toDecAux]
        have h10 : n / 10 = 0 := Nat.div_eq_of_lt hsmall
        rw [h10]
        simp only [if_pos rfl, List.nil_append, List.length_nil, pow_zero,
          Nat.div_one]
        rw [Nat.mod_eq_of_lt hsmall]
        simp
      · simpa using hn
      · simpa using hsmall
    · have hpos : 0 < n / 10 := Nat.div_pos (by omega) (by norm_num)
      obtain ⟨t, hds, hlow, hhigh⟩ :=
        ih (n / 10) (Nat.div_lt_self hn (by norm_num)) hpos
      refine ⟨t ++ [Char.ofNat (48 + n % 10)], ?_, ?_, ?_⟩
      · rw [toDecAux, if_neg (Nat.pos_iff_ne_zero.mp hn), hds]
        simp only [List.cons_append, List.length_append, List.length_cons,
          List.length_nil, List.length_singleton]
        rw [Nat.div_div_eq_div_mul]
        norm_num
        ring_nf
      · simp only [List.length_append, List.length_singleton]
        have : 10 ^ (t.length + 1) = 10 ^ t.length * 10 := by ring
        rw [this]
        calc 10 ^ t.length * 10 ≤ (n / 10) * 10 := by
              exact Nat.mul_le_mul_right 10 hlow
          _ ≤ n := by omega
      · simp only [List.length_append, List.length_singleton]
        have he : 10 ^ (t.length + 1 + 1) = 10 ^ (t.length + 1) * 10 := by ring
        rw [he]
        have := Nat.lt_succ_iff.mpr hhigh
        have hlt : n / 10 < 10 ^ (t.length + 1) := hhigh
        omega

theorem toDecAux_parse (n : Nat) :
    ∀ a, (toDecAux n).foldl (fun x c => 10 * x + (c.toNat - 48)) a =
      a * 10 ^ (toDecAux n).length + n := by
  induction n using Nat.strong_induction_on with
  | _ n ih =>
    intro a
    by_cases h : n = 0
    · subst h
      rw [toDecAux]
      simp
    · rw [toDecAux]
      simp only [h, if_false, List.foldl_append, List.foldl_cons, List.foldl_nil,
        List.length_append, List.length_singleton]
      rw [ih (n / 10) (Nat.div_lt_self (Nat.pos_of_ne_zero h) (by norm_num)) a]
      rw [digit_char_val (n % 10) (Nat.mod_lt n (by norm_num))]
      have : 10 ^ ((toDecAux (n / 10)).length + 1) =
          10 ^ (toDecAux (n / 10)).length * 10 := by ring
      rw [this]
      have hdm := Nat.div_add_mod n 10
      ring_nf
      ring_nf at hdm ⊢
      omega

theorem parse_replicate_zero (p : Nat) :
    ∀ a, (List.replicate p '0').foldl (fun x c => 10 * x + (c.toNat - 48)) a =
      a * 10 ^ p := by
  induction p with
  | zero => intro a; simp
  | succ m ih =>
    intro a
    rw [List.replicate_succ, List.foldl_cons, ih]
    have hc : '0'.toNat - 48 = 0 := rfl
    rw [hc]
    ring

theorem takeWhile_zero_replicate (l : List Nat) :
    l.takeWhile (· == 0) = List.replicate (l.takeWhile (· == 0)).length 0 := by
  induction l with
  | nil => simp
  | cons h t ih =>
    by_cases hz : h = 0
    · subst hz
      rw [List.takeWhile_cons_of_pos (by simp)]
      simp only [List.length_cons, List.replicate_succ]
      rw [← ih]
    · rw [List.takeWhile_cons_of_neg (by simp [hz])]
      simp

theorem takeWhile_zero_char_replicate (p : Nat) :
    (List.replicate p '0').takeWhile (· == '0') = List.replicate p '0' := by
  induction p with
  | zero => simp
  | succ m ih =>
    rw [List.replicate_succ, List.takeWhile_cons_of_pos (by simp), ih]

theorem takeWhile_zero_char_append (p : Nat) (c : Char) (t : List Char)
    (hc : c ≠ '0') :
    (List.replicate p '0' ++ c :: t).takeWhile (· == '0') = List.replicate p '0' := by
  induction p with
  | zero =>
    simp only [List.replicate_zero, List.nil_append]
    rw [List.takeWhile_cons_of_neg (by simp [hc])]
  | succ m ih =>
    rw [List.replicate_succ, List.cons_append,
      List.takeWhile_cons_of_pos (by simp), ih]

theorem replicate_zero_char_all_digits (p : Nat) :
    (List.replicate p '0').all Char.isDigit = true := by
  induction p with
  | zero => simp
  | succ m ih =>
    rw [List.replicate_succ, List.all_cons, ih]
    rfl

/-- C1 (amended): for every NON-EMPTY byte string `b`,
`decimal_decode (decimal_encode b) = some b`; zero bytes, leading or not,
are preserved. -/
theorem decimal_decode_encode (b : List Nat) (hne : b ≠ [])
    (hlt : ∀ x ∈ b, x < 256) :
    decimal_decode (decimal_encode b) = some b := by
  have hsplit : b.takeWhile (· == 0) ++ b.dropWhile (· == 0) = b :=
    List.takeWhile_append_dropWhile (· == 0) b
  have hrep : b.takeWhile (· == 0) =
      List.replicate (b.takeWhile (· == 0)).length 0 := takeWhile_zero_replicate b
  have hval : bytes_to_long b = beVal (b.dropWhile (· == 0)) := by
    rw [bytes_to_long_eq_beVal, beVal_dropWhile_zero]
  rcases hr : b.dropWhile (· == 0) with _ | ⟨h, t⟩
  · -- all bytes of `b` are zero
    have hb : b = List.replicate (b.takeWhile (· == 0)).length 0 := by
      conv_lhs => rw [← hsplit]
      rw [hr, hrep]
      simp
    have hv0 : bytes_to_long b = 0 := by
      rw [hval, hr]
      rfl
    have hp1 : 0 < (b.takeWhile (· == 0)).length := by
      rcases Nat.eq_zero_or_pos (b.takeWhile (· == 0)).length with h0 | h0
      · rw [h0] at hb
        exact absurd (by simpa using hb) hne
      · exact h0
    have henc : decimal_encode b =
        List.replicate (b.takeWhile (· == 0)).length '0' := by
      unfold decimal_encode
      rw [hv0]
      simp
    have hparse : long_of_string
        (List.replicate (b.takeWhile (· == 0)).length '0') = some 0 := by
      unfold long_of_string
      rw [if_pos ⟨by simp only [ne_eq, List.replicate_eq_nil_iff]; omega,
        replicate_zero_char_all_digits _⟩]
      rw [parse_replicate_zero]
      simp
    rw [henc]
    unfold decimal_decode
    dsimp only
    rw [takeWhile_zero_char_replicate, hparse]
    dsimp only
    rw [if_pos rfl, List.length_replicate]
    exact congrArg some hb.symm
  · -- `b` has a non-zero byte; the value is positive
    have hh : h ≠ 0 := dropWhile_zero_head b h t hr
    have hvpos : 0 < beVal (h :: t) := beVal_positive h t hh
    have hv : bytes_to_long b = beVal (h :: t) := by rw [hval, hr]
    obtain ⟨dt, hds, hlow, hhigh⟩ := toDecAux_shape (beVal (h :: t)) hvpos
    have hd10 : beVal (h :: t) / 10 ^ dt.length < 10 := by
      rw [Nat.div_lt_iff_lt_mul (pow_pos (by norm_num) _)]
      have hpow : 10 ^ (dt.length + 1) = 10 * 10 ^ dt.length := by ring
      rw [← hpow]
      exact hhigh
    have hd0 : 0 < beVal (h :: t) / 10 ^ dt.length :=
      Nat.div_pos hlow (pow_pos (by norm_num) _)
    have hdchar : Char.ofNat (48 + beVal (h :: t) / 10 ^ dt.length) ≠ '0' :=
      digit_char_ne_zero_char _ hd10 hd0
    have henc : decimal_encode b =
        List.replicate (b.takeWhile (· == 0)).length '0' ++
          toDecAux (beVal (h :: t)) := by
      unfold decimal_encode
      rw [hv, if_pos (Nat.pos_iff_ne_zero.mp hvpos)]
      unfold bytes_of_long
      rw [if_neg (Nat.pos_iff_ne_zero.mp hvpos)]
    have hdigits : (List.replicate (b.takeWhile (· == 0)).length '0' ++
        Char.ofNat (48 + beVal (h :: t) / 10 ^ dt.length) :: dt).all
          Char.isDigit = true := by
      rw [List.all_append, replicate_zero_char_all_digits, ← hds,
        toDecAux_all_digits]
      rfl
    have hparse : long_of_string
        (List.replicate (b.takeWhile (· == 0)).length '0' ++
          Char.ofNat (48 + beVal (h :: t) / 10 ^ dt.length) :: dt) =
        some (beVal (h :: t)) := by
      unfold long_of_string
      rw [if_pos ⟨by simp, hdigits⟩]
      rw [List.foldl_append, parse_replicate_zero, ← hds, toDecAux_parse]
      simp
    have hmin : long_to_bytes (beVal (h :: t)) 0 = h :: t := by
      rw [long_to_bytes_zero_bs]
      unfold minimal_encoding
      rw [if_neg (Nat.pos_iff_ne_zero.mp hvpos)]
      exact toBE_of_beVal (h :: t)
        (fun x hx => hlt x (mem_dropWhile_zero b x (hr ▸ hx)))
        (fun a s he => by
          rw [← (List.cons.inj he).1]
          exact hh)
    have hb : List.replicate (b.takeWhile (· == 0)).length 0 ++ h :: t = b := by
      conv_rhs => rw [← hsplit, hr, hrep]
    rw [henc, hds]
    unfold decimal_decode
    dsimp only
    rw [takeWhile_zero_char_append _ _ _ hdchar, hparse]
    dsimp only
    rw [if_neg (Nat.pos_iff_ne_zero.mp hvpos), List.length_replicate, hmin]
    exact congrArg some hb

/-- C1 counterexample: the round trip FAILS on the empty byte string —
`decimal_encode` yields the empty string and `decimal_decode` rejects it
(Python `long('')` raises `ValueError`). -/
theorem decimal_roundtrip_empty_fails :
    decimal_encode [] = [] ∧ decimal_decode [] = none := by
  constructor
  · rfl
  · rfl

/-- C1 witness: the amended round trip at the spec's own example
`b = "\x00\x00\x05"`. -/
theorem decimal_decode_encode_witness :
    ([0, 0, 5] : List Nat) ≠ [] ∧ (∀ x ∈ ([0, 0, 5] : List Nat), x < 256) ∧
    decimal_decode (decimal_encode [0, 0, 5]) = some [0, 0, 5] :=
  ⟨by decide, by decide, decimal_decode_encode [0, 0, 5] (by decide) (by decide)⟩

/-! ### Hex codec -/

/-- Modelled from the spec: the lowercase hex digit character for a nibble
(`binascii.b2a_hex` renders most-significant nibble first, lowercase). -/
def toHexChar (d : Nat) : Char :=
  if d < 10 then Char.ofNat (48 + d) else Char.ofNat (97 + d - 10)

/-- `mom.codec.hex_encode`, modelled from the spec: `binascii.b2a_hex`
renders each input byte as two lowercase hex characters. -/
def hex_encode : List Nat → List Char
  | [] => []
  | x :: rest => toHexChar (x / 16) :: toHexChar (x % 16) :: hex_encode rest

/-- Modelled from the spec: value of one hex digit character,
case-insensitive; `none` for a non-hex character. -/
def hexVal (c : Char) : Option Nat :=
  if '0' ≤ c ∧ c ≤ '9' then some (c.toNat - 48)
  else if 'a' ≤ c ∧ c ≤ 'f' then some (c.toNat - 87)
  else if 'A' ≤ c ∧ c ≤ 'F' then some (c.toNat - 55)
  else none

/-- `mom.codec.hex_decode`, modelled from the spec: `binascii.a2b_hex` is
the exact inverse of `b2a_hex`; it fails on odd-length input or any
non-hex character. -/
def hex_decode : List Char → Option (List Nat)
  | [] => some []
  | [_] => none
  | c1 :: c2 :: rest =>
    match hexVal c1, hexVal c2, hex_decode rest with
    | some hi, some lo, some t => some ((16 * hi + lo) :: t)
    | _, _, _ => none

theorem hexVal_toHexChar : ∀ d < 16, hexVal (toHexChar d) = some d := by
  decide

theorem hex_roundtrip_core (b : List Nat) (hlt : ∀ x ∈ b, x < 256) :
    hex_decode (hex_encode b) = some b ∧
    (hex_encode b).length = 2 * b.length := by
  induction b with
  | nil => exact ⟨rfl, rfl⟩
  | cons x rest ih =>
    have hx : x < 256 := hlt x (by simp)
    obtain ⟨ihd, ihl⟩ := ih (fun y hy => hlt y (by simp [hy]))
    constructor
    · show hex_decode (toHexChar (x / 16) :: toHexChar (x % 16) ::
        hex_encode rest) = _
      rw [hex_decode]
      rw [hexVal_toHexChar (x / 16) (by omega), hexVal_toHexChar (x % 16) (by omega),
        ihd]
      dsimp only
      have : 16 * (x / 16) + x % 16 = x := by omega
      rw [this]
    · show (toHexChar (x / 16) :: toHexChar (x % 16) :: hex_encode rest).length = _
      simp only [List.length_cons, ihl, List.length_cons]
      ring

/-- C7: for every byte string `b`, `hex_decode (hex_encode b) = some b`,
and the encoded length is exactly twice the input length. -/
theorem hex_decode_encode (b : List Nat) (hlt : ∀ x ∈ b, x < 256) :
    hex_decode (hex_encode b) = some b ∧
    (hex_encode b).length = 2 * b.length :=
  hex_roundtrip_core b hlt

/-- C7 witness: the round trip and length law at the spec's literal
`"\x00\xff"`. -/
theorem hex_decode_encode_witness :
    hex_decode (hex_encode [0, 255]) = some [0, 255] ∧
    (hex_encode [0, 255]).length = 2 * ([0, 255] : List Nat).length :=
  hex_decode_encode [0, 255] (by decide)

/-! ### Binary (nibble) codec -/

/-- `mom.codec._HEX_TO_BIN_LOOKUP`: hex digit character to its 4-bit
`'0'`/`'1'` expansion; `none` models the dict `KeyError`. -/
def hexToBinLookup : Char → Option (List Char)
  | '0' => some ['0', '0', '0', '0']
  | '1' => some ['0', '0', '0', '1']
  | '2' => some ['0', '0', '1', '0']
  | '3' => some ['0', '0', '1', '1']
  | '4' => some ['0', '1', '0', '0']
  | '5' => some ['0', '1', '0', '1']
  | '6' => some ['0', '1', '1', '0']
  | '7' => some ['0', '1', '1', '1']
  | '8' => some ['1', '0', '0', '0']
  | '9' => some ['1', '0', '0', '1']
  | 'a' => some ['1', '0', '1', '0']
  | 'A' => some ['1', '0', '1', '0']
  | 'b' => some ['1', '0', '1', '1']
  | 'B' => some ['1', '0', '1', '1']
  | 'c' => some ['1', '1', '0', '0']
  | 'C' => some ['1', '1', '0', '0']
  | 'd' => some ['1', '1', '0', '1']
  | 'D' => some ['1', '1', '0', '1']
  | 'e' => some ['1', '1', '1', '0']
  | 'E' => some ['1', '1', '1', '0']
  | 'f' => some ['1', '1', '1', '1']
  | 'F' => some ['1', '1', '1', '1']
  | _ => none

/-- `mom.codec._BIN_TO_HEX_LOOKUP`: 4-character `'0'`/`'1'` group to the
lowercase hex digit; `none` models the dict `KeyError` on an unmapped
group (including any group shorter than 4 characters). -/
def binToHexLookup : List Char → Option Char
  | ['0', '0', '0', '0'] => some '0'
  | ['0', '0', '0', '1'] => some '1'
  | ['0', '0', '1', '0'] => some '2'
  | ['0', '0', '1', '1'] => some '3'
  | ['0', '1', '0', '0'] => some '4'
  | ['0', '1', '0', '1'] => some '5'
  | ['0', '1', '1', '0'] => some '6'
  | ['0', '1', '1', '1'] => some '7'
  | ['1', '0', '0', '0'] => some '8'
  | ['1', '0', '0', '1'] => some '9'
  | ['1', '0', '1', '0'] => some 'a'
  | ['1', '0', '1', '1'] => some 'b'
  | ['1', '1', '0', '0'] => some 'c'
  | ['1', '1', '0', '1'] => some 'd'
  | ['1', '1', '1', '0'] => some 'e'
  | ['1', '1', '1', '1'] => some 'f'
  | _ => none

/-- Modelled from the spec: `mom.itertools.group(s, 4)` (that module is not
among the analyzed sources) — split into consecutive 4-character chunks, a
shorter final chunk carrying any remainder. -/
def group4 : List Char → List (List Char)
  | a :: b :: c :: d :: rest => [a, b, c, d] :: group4 rest
  | [] => []
  | rest => [rest]

/-- The generator join of `bin_encode`: look every hex character up and
concatenate; a single failed lookup fails the whole transform. -/
def hexToBinJoin : List Char → Option (List Char)
  | [] => some []
  | c :: rest =>
    match hexToBinLookup c, hexToBinJoin rest with
    | some bl, some t => some (bl ++ t)
    | _, _ => none

/-- `mom.codec.bin_encode`: hex-encode, then expand every hex digit to its
4-bit representation. -/
def bin_encode (byte_string : List Nat) : Option (List Char) :=
  hexToBinJoin (hex_encode byte_string)

/-- The generator of `bin_decode`: map every 4-character group back to a
hex digit. -/
def binGroupsToHex : List (List Char) → Option (List Char)
  | [] => some []
  | g :: rest =>
    match binToHexLookup g, binGroupsToHex rest with
    | some h, some t => some (h :: t)
    | _, _ => none

/-- `mom.codec.bin_decode`: group into 4-character chunks, map back to hex
digits, then hex-decode. -/
def bin_decode (binary_string : List Char) : Option (List Nat) :=
  (binGroupsToHex (group4 binary_string)).bind hex_decode

theorem hexToBin_spec : ∀ d < 16,
    (hexToBinLookup (toHexChar d)).isSome = true ∧
    ((hexToBinLookup (toHexChar d)).getD []).length = 4 ∧
    binToHexLookup ((hexToBinLookup (toHexChar d)).getD []) =
      some (toHexChar d) := by
  decide

theorem group4_cons4 (p q r s : Char) (t : List Char) :
    group4 (p :: q :: r :: s :: t) = [p, q, r, s] :: group4 t := rfl

theorem group4_append4 (g t : List Char) (hg : g.length = 4) :
    group4 (g ++ t) = g :: group4 t := by
  match g, hg with
  | [p, q, r, s], _ => rfl

theorem bin_roundtrip_aux (b : List Nat) (hlt : ∀ x ∈ b, x < 256) :
    ∃ s, hexToBinJoin (hex_encode b) = some s ∧
      binGroupsToHex (group4 s) = some (hex_encode b) := by
  induction b with
  | nil => exact ⟨[], rfl, rfl⟩
  | cons x rest ih =>
    have hx : x < 256 := hlt x (by simp)
    obtain ⟨s, hjoin, hgroups⟩ := ih (fun y hy => hlt y (by simp [hy]))
    obtain ⟨hs1, hl1, hb1⟩ := hexToBin_spec (x / 16) (by omega)
    obtain ⟨hs2, hl2, hb2⟩ := hexToBin_spec (x % 16) (by omega)
    obtain ⟨bl1, hbl1⟩ := Option.isSome_iff_exists.mp hs1
    obtain ⟨bl2, hbl2⟩ := Option.isSome_iff_exists.mp hs2
    rw [hbl1] at hl1 hb1
    rw [hbl2] at hl2 hb2
    simp only [Option.getD_some] at hl1 hb1 hl2 hb2
    refine ⟨bl1 ++ (bl2 ++ s), ?_, ?_⟩
    · show hexToBinJoin (toHexChar (x / 16) :: toHexChar (x % 16) ::
        hex_encode rest) = _
      rw [hexToBinJoin, hbl1]
      rw [hexToBinJoin, hbl2, hjoin]
    · rw [group4_append4 bl1 (bl2 ++ s) hl1, group4_append4 bl2 s hl2]
      rw [binGroupsToHex, hb1]
      rw [binGroupsToHex, hb2, hgroups]
      rfl

/-- C9: for every byte string `b`, `bin_decode (bin_encode b) = some b`;
zero bytes are preserved because the codec works per byte through hex. -/
theorem bin_decode_encode (b : List Nat) (hlt : ∀ x ∈ b, x < 256) :
    (bin_encode b).bind bin_decode = some b := by
  obtain ⟨s, hjoin, hgroups⟩ := bin_roundtrip_aux b hlt
  unfold bin_encode bin_decode
  simp only [hjoin, Option.some_bind, hgroups]
  exact (hex_roundtrip_core b hlt).1

/-- C9 witness: the round trip at the two-zero-byte input singled out by
the spec. -/
theorem bin_decode_encode_witness :
    (bin_encode [0, 0]).bind bin_decode = some [0, 0] :=
  bin_decode_encode [0, 0] (by decide)

theorem binToHex_01 (a b c d : Char)
    (ha : a = '0' ∨ a = '1') (hb : b = '0' ∨ b = '1')
    (hc : c = '0' ∨ c = '1') (hd : d = '0' ∨ d = '1') :
    (binToHexLookup [a, b, c, d]).isSome = true := by
  rcases ha with rfl | rfl <;> rcases hb with rfl | rfl <;>
    rcases hc with rfl | rfl <;> rcases hd with rfl | rfl <;> decide

theorem binGroups_01 (s : List Char) :
    (∀ c ∈ s, c = '0' ∨ c = '1') → s.length % 4 = 0 →
    ∃ hx, binGroupsToHex (group4 s) = some hx ∧ hx.length = s.length / 4 := by
  induction s using group4.induct with
  | case1 a b c d rest ih =>
    intro hbit h4
    have hr4 : rest.length % 4 = 0 := by
      simp only [List.length_cons] at h4
      omega
    obtain ⟨hx, hrec, hlen⟩ := ih (fun x hx => hbit x (by simp [hx])) hr4
    have hsome := binToHex_01 a b c d (hbit a (by simp)) (hbit b (by simp))
      (hbit c (by simp)) (hbit d (by simp))
    obtain ⟨h, hh⟩ := Option.isSome_iff_exists.mp hsome
    refine ⟨h :: hx, ?_, ?_⟩
    · rw [group4_cons4, binGroupsToHex, hh, hrec]
    · simp only [List.length_cons, hlen]
      omega
  | case2 =>
    intro _ _
    exact ⟨[], rfl, rfl⟩
  | case3 t hshape hne =>
    intro hbit h4
    rcases t with _ | ⟨a, _ | ⟨b, _ | ⟨c, _ | ⟨d, rest⟩⟩⟩⟩
    · exact (hne rfl).elim
    · simp at h4
    · simp at h4
    · simp at h4
    · exact (hshape a b c d rest rfl).elim

theorem hex_decode_odd_aux :
    ∀ (n : Nat) (s : List Char), s.length = n → s.length % 2 = 1 →
      hex_decode s = none := by
  intro n
  induction n using Nat.strong_induction_on with
  | _ n ih =>
    intro s hlen hodd
    rcases s with _ | ⟨c1, _ | ⟨c2, rest⟩⟩
    · simp at hodd
    · rfl
    · have hr : rest.length % 2 = 1 := by
        simp only [List.length_cons] at hodd
        omega
      have hlt : rest.length < n := by
        subst hlen
        simp only [List.length_cons]
        omega
      have hrec : hex_decode rest = none := ih rest.length hlt rest rfl hr
      rw [hex_decode, hrec]
      cases hexVal c1 <;> cases hexVal c2 <;> rfl

theorem hex_decode_odd (s : List Char) (hodd : s.length % 2 = 1) :
    hex_decode s = none :=
  hex_decode_odd_aux s.length s rfl hodd

/-- C10: a `'0'`/`'1'` string whose length is a multiple of 4 but not of 8
maps to an odd number of hex digits, which the final hex-decoding step
rejects — `bin_decode` fails. -/
theorem bin_decode_four_not_eight (s : List Char)
    (hbit : ∀ c ∈ s, c = '0' ∨ c = '1')
    (h4 : s.length % 4 = 0) (h8 : s.length % 8 ≠ 0) :
    bin_decode s = none := by
  obtain ⟨hx, hgroups, hlen⟩ := binGroups_01 s hbit h4
  unfold bin_decode
  rw [hgroups, Option.some_bind]
  apply hex_decode_odd
  omega

/-- C10 witness: `bin_decode "0000"` fails. -/
theorem bin_decode_four_not_eight_witness :
    (∀ c ∈ (['0', '0', '0', '0'] : List Char), c = '0' ∨ c = '1') ∧
    (['0', '0', '0', '0'] : List Char).length % 4 = 0 ∧
    (['0', '0', '0', '0'] : List Char).length % 8 ≠ 0 ∧
    bin_decode ['0', '0', '0', '0'] = none :=
  ⟨by decide, by decide, by decide,
    bin_decode_four_not_eight ['0', '0', '0', '0'] (by decide) (by decide)
      (by decide)⟩

/-! ### Base64 codec -/

/-- The standard Base64 alphabet, in index order. -/
def B64ALPHABET : List Char :=
  ['A', 'B', 'C', 'D', 'E', 'F', 'G', 'H', 'I', 'J', 'K', 'L', 'M',
   'N', 'O', 'P', 'Q', 'R', 'S', 'T', 'U', 'V', 'W', 'X', 'Y', 'Z',
   'a', 'b', 'c', 'd', 'e', 'f', 'g', 'h', 'i', 'j', 'k', 'l', 'm',
   'n', 'o', 'p', 'q', 'r', 's', 't', 'u', 'v', 'w', 'x', 'y', 'z',
   '0', '1', '2', '3', '4', '5', '6', '7', '8', '9', '+', '/']

/-- Alphabet character for a 6-bit value. -/
def b64Char (i : Nat) : Char := B64ALPHABET.getD i 'A'

/-- Index of an alphabet character, `none` for a character outside the
alphabet. -/
def b64Index (c : Char) : Option Nat := B64ALPHABET.findIdx? (· == c)

/-- Modelled from the spec: the Base64 body of `binascii.b2a_base64` —
3-byte groups become 4 alphabet characters; a final 1- or 2-byte group is
padded with `=`. -/
def b64EncodeCore : List Nat → List Char
  | [] => []
  | [a] => [b64Char (a / 4), b64Char (a % 4 * 16), '=', '=']
  | [a, b] => [b64Char (a / 4), b64Char (a % 4 * 16 + b / 16),
               b64Char (b % 16 * 4), '=']
  | a :: b :: c :: rest =>
    b64Char (a / 4) :: b64Char (a % 4 * 16 + b / 16) ::
      b64Char (b % 16 * 4 + c / 64) :: b64Char (c % 64) :: b64EncodeCore rest

/-- Modelled from the spec: `binascii.b2a_base64` appends a single trailing
newline to the Base64 body. -/
def b2a_base64 (byte_string : List Nat) : List Char :=
  b64EncodeCore byte_string ++ ['\n']

/-- `mom.codec.base64_encode`: `b2a_base64` with the last character (the
newline) removed. -/
def base64_encode (byte_string : List Nat) : List Char :=
  (b2a_base64 byte_string).dropLast

/-- Modelled from the spec: `binascii.a2b_base64` on canonical input —
4-character groups of alphabet characters, with `=`-padding allowed only in
the final group; anything malformed fails. -/
def b64DecodeCore : List Char → Option (List Nat)
  | c1 :: c2 :: c3 :: c4 :: rest =>
    match b64Index c1, b64Index c2 with
    | some i1, some i2 =>
      if c3 = '=' then
        if c4 = '=' ∧ rest = [] then some [i1 * 4 + i2 / 16] else none
      else
        match b64Index c3 with
        | some i3 =>
          if c4 = '=' then
            if rest = [] then
              some [i1 * 4 + i2 / 16, i2 % 16 * 16 + i3 / 4]
            else none
          else
            match b64Index c4, b64DecodeCore rest with
            | some i4, some t =>
              some ((i1 * 4 + i2 / 16) :: (i2 % 16 * 16 + i3 / 4) ::
                (i3 % 4 * 64 + i4) :: t)
            | _, _ => none
        | none => none
    | _, _ => none
  | [] => some []
  | _ => none

/-- `mom.codec.base64_decode` delegates to `a2b_base64`. -/
def base64_decode (encoded : List Char) : Option (List Nat) :=
  b64DecodeCore encoded

theorem b64Index_b64Char : ∀ i < 64, b64Index (b64Char i) = some i := by
  decide

theorem b64Char_ne_pad : ∀ i < 64, b64Char i ≠ '=' := by
  decide

theorem b64Char_ne_newline : ∀ i < 64, b64Char i ≠ '\n' ∧ b64Char i ≠ '\r' := by
  decide

theorem b64DecodeCore_b64EncodeCore (b : List Nat) :
    (∀ x ∈ b, x < 256) → b64DecodeCore (b64EncodeCore b) = some b := by
  induction b using b64EncodeCore.induct with
  | case1 =>
    intro _
    rfl
  | case2 a =>
    intro hlt
    have ha : a < 256 := hlt a (by simp)
    rw [b64EncodeCore, b64DecodeCore]
    rw [b64Index_b64Char (a / 4) (by omega),
      b64Index_b64Char (a % 4 * 16) (by omega)]
    dsimp only
    rw [if_pos rfl, if_pos ⟨rfl, rfl⟩]
    have : a / 4 * 4 + a % 4 * 16 / 16 = a := by omega
    rw [this]
  | case3 a b =>
    intro hlt
    have ha : a < 256 := hlt a (by simp)
    have hb : b < 256 := hlt b (by simp)
    rw [b64EncodeCore, b64DecodeCore]
    rw [b64Index_b64Char (a / 4) (by omega),
      b64Index_b64Char (a % 4 * 16 + b / 16) (by omega)]
    dsimp only
    rw [if_neg (b64Char_ne_pad (b % 16 * 4) (by omega))]
    rw [b64Index_b64Char (b % 16 * 4) (by omega)]
    dsimp only
    rw [if_pos rfl, if_pos rfl]
    have h1 : a / 4 * 4 + (a % 4 * 16 + b / 16) / 16 = a := by omega
    have h2 : (a % 4 * 16 + b / 16) % 16 * 16 + b % 16 * 4 / 4 = b := by omega
    rw [h1, h2]
  | case4 a b c rest ih =>
    intro hlt
    have ha : a < 256 := hlt a (by simp)
    have hb : b < 256 := hlt b (by simp)
    have hc : c < 256 := hlt c (by simp)
    have hrec : b64DecodeCore (b64EncodeCore rest) = some rest :=
      ih (fun x hx => hlt x (by simp [hx]))
    rw [b64EncodeCore, b64DecodeCore]
    rw [b64Index_b64Char (a / 4) (by omega),
      b64Index_b64Char (a % 4 * 16 + b / 16) (by omega)]
    dsimp only
    rw [if_neg (b64Char_ne_pad (b % 16 * 4 + c / 64) (by omega))]
    rw [b64Index_b64Char (b % 16 * 4 + c / 64) (by omega)]
    dsimp only
    rw [if_neg (b64Char_ne_pad (c % 64) (by omega))]
    rw [b64Index_b64Char (c % 64) (by omega), hrec]
    dsimp only
    have h1 : a / 4 * 4 + (a % 4 * 16 + b / 16) / 16 = a := by omega
    have h2 : (a % 4 * 16 + b / 16) % 16 * 16 + (b % 16 * 4 + c / 64) / 4 = b := by
      omega
    have h3 : (b % 16 * 4 + c / 64) % 4 * 64 + c % 64 = c := by omega
    rw [h1, h2, h3]

theorem b64EncodeCore_no_newline (b : List Nat) :
    (∀ x ∈ b, x < 256) → ∀ ch ∈ b64EncodeCore b, ch ≠ '\n' ∧ ch ≠ '\r' := by
  induction b using b64EncodeCore.induct with
  | case1 =>
    intro _ ch hch
    simp [b64EncodeCore] at hch
  | case2 a =>
    intro hlt ch hch
    have ha : a < 256 := hlt a (by simp)
    rw [b64EncodeCore] at hch
    simp only [List.mem_cons, List.not_mem_nil, or_false] at hch
    rcases hch with rfl | rfl | rfl | rfl
    · exact b64Char_ne_newline (a / 4) (by omega)
    · exact b64Char_ne_newline (a % 4 * 16) (by omega)
    · exact ⟨by decide, by decide⟩
    · exact ⟨by decide, by decide⟩
  | case3 a b =>
    intro hlt ch hch
    have ha : a < 256 := hlt a (by simp)
    have hb : b < 256 := hlt b (by simp)
    rw [b64EncodeCore] at hch
    simp only [List.mem_cons, List.not_mem_nil, or_false] at hch
    rcases hch with rfl | rfl | rfl | rfl
    · exact b64Char_ne_newline (a / 4) (by omega)
    · exact b64Char_ne_newline (a % 4 * 16 + b / 16) (by omega)
    · exact b64Char_ne_newline (b % 16 * 4) (by omega)
    · exact ⟨by decide, by decide⟩
  | case4 a b c rest ih =>
    intro hlt ch hch
    have ha : a < 256 := hlt a (by simp)
    have hb : b < 256 := hlt b (by simp)
    have hc : c < 256 := hlt c (by simp)
    rw [b64EncodeCore] at hch
    simp only [List.mem_cons] at hch
    rcases hch with rfl | rfl | rfl | rfl | hch
    · exact b64Char_ne_newline (a / 4) (by omega)
    · exact b64Char_ne_newline (a % 4 * 16 + b / 16) (by omega)
    · exact b64Char_ne_newline (b % 16 * 4 + c / 64) (by omega)
    · exact b64Char_ne_newline (c % 64) (by omega)
    · exact ih (fun x hx => hlt x (by simp [hx])) ch hch

theorem base64_encode_eq_core (b : List Nat) :
    base64_encode b = b64EncodeCore b := by
  unfold base64_encode b2a_base64
  rw [List.dropLast_concat]

/-- C8: for every byte string `b` (the empty one included),
`base64_decode (base64_encode b) = some b`, and the encoded output contains
no line-break character — the trailing newline of the underlying transform
is stripped. -/
theorem base64_decode_encode (b : List Nat) (hlt : ∀ x ∈ b, x < 256) :
    base64_decode (base64_encode b) = some b ∧
    ∀ ch ∈ base64_encode b, ch ≠ '\n' ∧ ch ≠ '\r' := by
  rw [base64_encode_eq_core]
  exact ⟨b64DecodeCore_b64EncodeCore b hlt, b64EncodeCore_no_newline b hlt⟩

/-- C8 witness: the round trip and newline-freedom at `b = "Man"`
(`[77, 97, 110]`), plus the empty string through the same theorem. -/
theorem base64_decode_encode_witness :
    (base64_decode (base64_encode [77, 97, 110]) = some [77, 97, 110] ∧
      ∀ ch ∈ base64_encode [77, 97, 110], ch ≠ '\n' ∧ ch ≠ '\r') ∧
    (base64_decode (base64_encode []) = some [] ∧
      ∀ ch ∈ base64_encode [], ch ≠ '\n' ∧ ch ≠ '\r') :=
  ⟨base64_decode_encode [77, 97, 110] (by decide),
   base64_decode_encode [] (by decide)⟩

/-! ### MPI (OpenSSL bignum) framer -/

/-- Modelled from the spec: `mom.builtins.long_bit_length` (not among the
analyzed sources) — 0 for value 0, otherwise the position of the highest set
bit plus 1. -/
def long_bit_length (n : Nat) : Nat := if n = 0 then 0 else Nat.log2 n + 1

/-- Modelled from the spec: `mom.builtins.long_byte_count` —
`ceil(bit_length / 8)`, 0 for value 0. -/
def long_byte_count (n : Nat) : Nat := (long_bit_length n + 7) / 8

/-- Modelled from the spec: the byte-array collaborator's
bytearray-from-integer — minimal big-endian magnitude bytes, empty for 0. -/
def long_to_bytearray (n : Nat) : List Nat := toBE n

/-- Modelled from the spec: the byte-array collaborator's
integer-from-bytearray — big-endian base-256 fold. -/
def bytearray_to_long (byte_array : List Nat) : Nat := beVal byte_array

/-- The four length-prefix bytes `(length >> 24) & 0xFF` … `length & 0xFF`
written into `byte_array[0..3]`. -/
def be4 (length : Nat) : List Nat :=
  [length / 2 ^ 24 % 256, length / 2 ^ 16 % 256, length / 2 ^ 8 % 256,
   length % 256]

/-- `mom.codec.long_to_mpi`: magnitude bytes prefixed by `4 + ext` zeros
(`ext = 1` exactly when the bit length is a multiple of 8, so the emitted
magnitude's top bit is never set), the first four overwritten with the
big-endian `length = byte_count + ext`. -/
def long_to_mpi (num : Nat) : List Nat :=
  let ext := if long_bit_length num &&& 7 = 0 then 1 else 0
  let length := long_byte_count num + ext
  be4 length ++ List.replicate ext 0 ++ long_to_bytearray num

/-- `mom.codec.mpi_to_long`: assert that byte 4's high bit is clear (`none`
models the assertion failure; fewer than 5 bytes is the `IndexError` of
`mpi_byte_string[4]`), then convert every byte from index 4 on. -/
def mpi_to_long (mpi_byte_string : List Nat) : Option Nat :=
  match mpi_byte_string with
  | _ :: _ :: _ :: _ :: b4 :: rest =>
    if b4 &&& 128 = 0 then some (bytearray_to_long (b4 :: rest)) else none
  | _ => none

theorem and_128_eq_zero (x : Nat) (hx : x < 128) : x &&& 128 = 0 := by
  have h7 : (128 : Nat) = 2 ^ 7 := by norm_num
  rw [h7, Nat.and_two_pow, Nat.testBit_lt_two_pow (by omega)]
  rfl

theorem toBE_shape :
    ∀ n : Nat, 0 < n → ∃ t : List Nat,
      toBE n = (n / 256 ^ t.length) :: t ∧
      256 ^ t.length ≤ n ∧ n < 256 ^ (t.length + 1) := by
  intro n
  induction n using Nat.strong_induction_on with
  | _ n ih =>
    intro hn
    by_cases hsmall : n < 256
    · refine ⟨[], ?_, ?_, ?_⟩
      · rw [toBE, if_neg (Nat.pos_iff_ne_zero.mp hn), toBE]
        have h256 : n / 256 = 0 := Nat.div_eq_of_lt hsmall
        rw [h256]
        simp only [if_pos rfl, List.nil_append, List.length_nil, pow_zero,
          Nat.div_one]
        rw [Nat.mod_eq_of_lt hsmall]
        simp
      · simpa using hn
      · simpa using hsmall
    · have hpos : 0 < n / 256 := Nat.div_pos (by omega) (by norm_num)
      obtain ⟨t, hds, hlow, hhigh⟩ :=
        ih (n / 256) (Nat.div_lt_self hn (by norm_num)) hpos
      refine ⟨t ++ [n % 256], ?_, ?_, ?_⟩
      · rw [toBE, if_neg (Nat.pos_iff_ne_zero.mp hn), hds]
        simp only [List.cons_append, List.length_append, List.length_cons,
          List.length_nil, List.length_singleton]
        rw [Nat.div_div_eq_div_mul]
        norm_num
        ring_nf
      · simp only [List.length_append, List.length_singleton]
        have hp : 256 ^ (t.length + 1) = 256 ^ t.length * 256 := by ring
        rw [hp]
        calc 256 ^ t.length * 256 ≤ (n / 256) * 256 :=
              Nat.mul_le_mul_right 256 hlow
          _ ≤ n := by omega
      · simp only [List.length_append, List.length_singleton]
        have he : 256 ^ (t.length + 1 + 1) = 256 ^ (t.length + 1) * 256 := by
          ring
        rw [he]
        omega

theorem toBE_head_lt_128 (n k : Nat) (hn : 0 < n)
    (hlow : 256 ^ k ≤ n) (hhigh : n < 256 ^ (k + 1))
    (hbl : long_bit_length n &&& 7 ≠ 0) : n / 256 ^ k < 128 := by
  have h256k : (256 : Nat) ^ k = 2 ^ (8 * k) := by
    rw [show (256 : Nat) = 2 ^ 8 by norm_num, ← pow_mul]
  have h256k1 : (256 : Nat) ^ (k + 1) = 2 ^ (8 * k + 8) := by
    rw [show (256 : Nat) = 2 ^ 8 by norm_num, ← pow_mul]
    ring_nf
  rw [h256k] at hlow ⊢
  rw [h256k1] at hhigh
  have hmod : (Nat.log2 n + 1) % 8 ≠ 0 := by
    have hb : long_bit_length n = Nat.log2 n + 1 := by
      unfold long_bit_length
      rw [if_neg (Nat.pos_iff_ne_zero.mp hn)]
    rw [hb] at hbl
    have h7 : (7 : Nat) = 2 ^ 3 - 1 := by norm_num
    rw [h7, Nat.and_pow_two_sub_one_eq_mod] at hbl
    simpa using hbl
  have hlog_lo : 8 * k ≤ Nat.log2 n := by
    by_contra hcon
    push_neg at hcon
    have h1 : n < 2 ^ (Nat.log2 n + 1) := Nat.lt_log2_self
    have h2 : (2 : Nat) ^ (Nat.log2 n + 1) ≤ 2 ^ (8 * k) :=
      Nat.pow_le_pow_right (by norm_num) (by omega)
    omega
  have hlog_hi : Nat.log2 n < 8 * k + 8 := by
    have h1 : (2 : Nat) ^ Nat.log2 n ≤ n := Nat.log2_self_le (by omega)
    have h2 : (2 : Nat) ^ Nat.log2 n < 2 ^ (8 * k + 8) := by omega
    exact (Nat.pow_lt_pow_iff_right (by norm_num)).mp h2
  have hlog : Nat.log2 n ≤ 8 * k + 6 := by omega
  have hn_lt : n < 2 ^ (8 * k) * 128 := by
    have h1 : n < 2 ^ (Nat.log2 n + 1) := Nat.lt_log2_self
    have h2 : (2 : Nat) ^ (Nat.log2 n + 1) ≤ 2 ^ (8 * k + 7) :=
      Nat.pow_le_pow_right (by norm_num) (by omega)
    have h3 : (2 : Nat) ^ (8 * k + 7) = 2 ^ (8 * k) * 128 := by
      rw [pow_add]
      norm_num
    omega
  rw [Nat.div_lt_iff_lt_mul (pow_pos (by norm_num) _)]
  omega

/-- C4: for every non-negative integer `n`,
`mpi_to_long (long_to_mpi n) = some n`. -/
theorem mpi_to_long_long_to_mpi (n : Nat) :
    mpi_to_long (long_to_mpi n) = some n := by
  by_cases hn : n = 0
  · subst hn
    have hmpi : long_to_mpi 0 = [0, 0, 0, 1, 0] := by
      have hbl : long_bit_length 0 = 0 := by
        unfold long_bit_length
        simp
      unfold long_to_mpi long_byte_count long_to_bytearray be4
      rw [hbl, toBE]
      norm_num
    rw [hmpi]
    unfold mpi_to_long bytearray_to_long
    norm_num
    rfl
  · have hnpos : 0 < n := Nat.pos_of_ne_zero hn
    obtain ⟨t, hsh, hlow, hhigh⟩ := toBE_shape n hnpos
    by_cases hext : long_bit_length n &&& 7 = 0
    · -- extra zero byte: byte 4 is 0
      have hmpi : long_to_mpi n =
          be4 (long_byte_count n + 1) ++ 0 :: toBE n := by
        unfold long_to_mpi long_to_bytearray
        rw [if_pos hext]
        dsimp only
        simp
      rw [hmpi]
      unfold be4 mpi_to_long bytearray_to_long
      simp only [List.cons_append, List.nil_append]
      rw [if_pos (by decide : (0 : Nat) &&& 128 = 0)]
      rw [beVal_cons, beVal_toBE]
      simp
    · -- no extra byte: byte 4 is the top magnitude byte, high bit clear
      have hmpi : long_to_mpi n = be4 (long_byte_count n) ++ toBE n := by
        unfold long_to_mpi long_to_bytearray
        rw [if_neg hext]
        simp
      have hhead : n / 256 ^ t.length < 128 :=
        toBE_head_lt_128 n t.length hnpos hlow hhigh hext
      rw [hmpi, hsh]
      unfold be4 mpi_to_long bytearray_to_long
      simp only [List.cons_append, List.nil_append]
      rw [if_pos (and_128_eq_zero _ hhead)]
      rw [← hsh, beVal_toBE]

/-- C5 counterexample: for the well-formed MPI string
`[0,0,0,1,5]` (`length = 1`, magnitude `\x05`), the code returns 5, while
`BytesToInteger` on the byte slice `[5, 4+length)` (empty here) yields 0 —
and appending a byte past position `4+length` changes the result. -/
theorem mpi_slice_counterexample :
    mpi_to_long [0, 0, 0, 1, 5] = some 5 ∧
    bytes_to_long (List.take (bytes_to_long (List.take 4 [0, 0, 0, 1, 5]) - 1)
      (List.drop 5 [0, 0, 0, 1, 5])) = 0 ∧
    mpi_to_long [0, 0, 0, 1, 5, 1] = some 1281 := by
  refine ⟨?_, ?_, ?_⟩ <;> decide

/-- C5 (amended): for every MPI byte string accepted by `mpi_to_long`, the
result is `BytesToInteger` of ALL bytes from index 4 on — the length prefix
does not influence the result, trailing bytes do. -/
theorem mpi_to_long_tail (b0 b1 b2 b3 b4 : Nat) (rest : List Nat)
    (hbit : b4 &&& 128 = 0) :
    mpi_to_long (b0 :: b1 :: b2 :: b3 :: b4 :: rest) =
      some (bytes_to_long (b4 :: rest)) ∧
    mpi_to_long (b0 :: b1 :: b2 :: b3 :: b4 :: rest) =
      mpi_to_long (0 :: 0 :: 0 :: 0 :: b4 :: rest) := by
  unfold mpi_to_long bytearray_to_long
  rw [bytes_to_long_eq_beVal]
  simp [hbit]

/-- C5 witness: the amended statement at the counterexample input. -/
theorem mpi_to_long_tail_witness :
    (5 : Nat) &&& 128 = 0 ∧
    (mpi_to_long [0, 0, 0, 1, 5] = some (bytes_to_long [5]) ∧
      mpi_to_long [0, 0, 0, 1, 5] = mpi_to_long [0, 0, 0, 0, 5]) :=
  ⟨by decide, mpi_to_long_tail 0 0 0 1 5 [] (by decide)⟩

/-- C6: for every byte string of length ≥ 5 (split as its first five bytes
and a tail), `mpi_to_long` fails exactly when byte index 4 has its high bit
(`0x80`) set. -/
theorem mpi_to_long_none_iff (b0 b1 b2 b3 b4 : Nat) (rest : List Nat) :
    mpi_to_long (b0 :: b1 :: b2 :: b3 :: b4 :: rest) = none ↔
      b4 &&& 128 ≠ 0 := by
  unfold mpi_to_long bytearray_to_long
  by_cases h : b4 &&& 128 = 0 <;> simp [h]

end Mom
